import Mathlib

/-!
Verification of the structured-prediction core of the GMM-Master repository
(`src/model/crfV1.py`): the `CRF` module with its pairwise transition energy,
gold-sequence scorer, negative-sampled normalizer, training loss entry point
and Viterbi decoder.

Tensors are embedded as index functions (`ℕ → α` for vectors, `ℕ → ℕ → α`
for matrices), with explicit dimension parameters.  Scores are elements of an
arbitrary linear ordered commutative ring for the purely algebraic parts (transition
energies, sequence scoring, Viterbi decoding); the normalizer, which uses
`exp`/`log`, is specialized to `ℝ`.  The batch dimension is factored out:
every batched source operation computes each batch element's result from that
element's own columns of the inputs (the decoder even iterates `for j in
range(batch_size)` explicitly), so the per-element functions below are the
batched operations at one batch index, and the batched entry points map them
over `List.range batchSize`.
-/

namespace GMM

variable {α : Type*} [LinearOrderedCommRing α]

/-- `torch.nn.functional.relu`: clamp negatives to zero. -/
def relu (x : α) : α := max x 0

/-- Dot product of two length-`d` vectors. -/
def dot (d : ℕ) (x y : ℕ → α) : α := ∑ j in Finset.range d, x j * y j

/-- `torch.nn.Linear(emb_dim, emb_dim)` applied to a vector: `x ↦ W x + b`. -/
def linearMap (d : ℕ) (w : ℕ → ℕ → α) (b : ℕ → α) (x : ℕ → α) : ℕ → α :=
  fun k => dot d (w k) x + b k

/-- Matrix product with inner dimension `d` (entry form of `@`). -/
def matMul (d : ℕ) (M N : ℕ → ℕ → α) : ℕ → ℕ → α :=
  fun a c => ∑ j in Finset.range d, M a j * N j c

/-- Matrix transpose (`.T`). -/
def transposeM (M : ℕ → ℕ → α) : ℕ → ℕ → α := fun i j => M j i

/-- Conversion of a boolean mask entry to a score factor (`mask.float()`). -/
def maskF (m : Bool) : α := if m then 1 else 0

/-- The `CRF` module state: the arguments stored by `CRF.__init__`
(`num_tags`, `emb_dim`, `beam_size`, `neg_nums`) and the parameters of the
learned linear map `self.W` (weight matrix and bias vector). -/
structure CRF (α : Type*) where
  numTags : ℕ
  embDim : ℕ
  beamSize : ℕ
  negNums : ℕ
  Wweight : ℕ → ℕ → α
  Wbias : ℕ → α

/-- `CRF.__init__`: stores its arguments and builds `self.W`.  The source
constructor performs no validation of any kind (crfV1.py lines 13–20). -/
def CRF.init (numTags embDim beamSize negNums : ℕ)
    (wweight : ℕ → ℕ → α) (wbias : ℕ → α) : CRF α :=
  ⟨numTags, embDim, beamSize, negNums, wweight, wbias⟩

/-- `CRF.transition` (scalar/pairwise form, one batch element): project
`full_road_emb[tag1]` through `self.W`, dot with `full_road_emb[tag2]`,
rectify, then gate by the adjacency entry `A_list[tag1, tag2]`. -/
def CRF.transition (c : CRF α) (fullRoadEmb A : ℕ → ℕ → α) (tag1 tag2 : ℕ) : α :=
  A tag1 tag2 *
    relu (dot c.embDim (linearMap c.embDim c.Wweight c.Wbias (fullRoadEmb tag1))
      (fullRoadEmb tag2))

/-- `CRF.transitions` (matrix form): `attention = W(full_road_emb) @
full_road_emb.T`, then `energy = A_list * relu(attention)` elementwise. -/
def CRF.transitions (c : CRF α) (fullRoadEmb A : ℕ → ℕ → α) : ℕ → ℕ → α :=
  fun a b =>
    A a b *
      relu (matMul c.embDim
        (fun i => linearMap c.embDim c.Wweight c.Wbias (fullRoadEmb i))
        (transposeM fullRoadEmb) a b)

/-- `CRF._compute_score` for one batch element: start from the first
emission, then `for i in range(1, seq_length)` add the transition from the
previous to the current gold tag and the current emission, each multiplied
by the float mask of position `i`. -/
def CRF.computeScore (c : CRF α) (emissions : ℕ → ℕ → α) (tags : ℕ → ℕ)
    (fullRoadEmb A : ℕ → ℕ → α) (mask : ℕ → Bool) (seqLength : ℕ) : α :=
  (List.range' 1 (seqLength - 1)).foldl
    (fun score i =>
      score + c.transition fullRoadEmb A (tags (i - 1)) (tags i) * maskF (mask i)
        + emissions i (tags i) * maskF (mask i))
    (emissions 0 (tags 0))

/-- `torch.max(v, dim)` over a dimension of size `n`: the maximal value and
the index of the first maximal entry (ties keep the earlier index). -/
def torchMax (n : ℕ) (f : ℕ → α) : α × ℕ :=
  (List.range n).foldl (fun p i => if p.1 < f i then (f i, i) else p) (f 0, 0)

/-- One Viterbi max-accumulation step (`_viterbi_decode`, the per-`j` inner
loop): for each next tag `j`, the maximum over all current tags `i'` of
`score[i'] + trans[i', j] + emissions[i, j]`. -/
def viterbiStepScores (n : ℕ) (trans : ℕ → ℕ → α) (emI score : ℕ → α) :
    ℕ → α :=
  fun j => (torchMax n (fun i' => score i' + trans i' j + emI j)).1

/-- The backpointers recorded at one Viterbi step: the arg-max current tag
for each next tag `j`. -/
def viterbiStepIndices (n : ℕ) (trans : ℕ → ℕ → α) (emI score : ℕ → α) :
    ℕ → ℕ :=
  fun j => (torchMax n (fun i' => score i' + trans i' j + emI j)).2

/-- The Viterbi loop state after processing steps `1 .. m` (`_viterbi_decode`
lines 168–198): the per-tag score vector and the list of recorded
backpointers.  The score is overwritten by this step's maxima only when the
mask is set (`torch.where(mask[i], next_score, score)`), while the freshly
computed indices are appended to the history unconditionally
(`history.append(indices.clone())`). -/
def viterbiState (n : ℕ) (trans : ℕ → ℕ → α) (emissions : ℕ → ℕ → α)
    (mask : ℕ → Bool) : ℕ → (ℕ → α) × List (ℕ → ℕ)
  | 0 => (emissions 0, [])
  | m + 1 =>
    let st := viterbiState n trans emissions mask m
    ((if mask (m + 1) then
        viterbiStepScores n trans (emissions (m + 1)) st.1
      else st.1),
     st.2 ++ [viterbiStepIndices n trans (emissions (m + 1)) st.1])

/-- `mask.long().sum(dim=0)` for one batch element: the number of valid
positions among `0 .. seqLength-1`. -/
def countValid (mask : ℕ → Bool) (seqLength : ℕ) : ℕ :=
  (List.range seqLength).countP mask

/-- The trace-back of `_viterbi_decode`: the argument list is
`reversed(history[:seq_ends])` (most recent step first); each backpointer
table maps the current best tag to its predecessor, and the result is the
forward-ordered path. -/
def btrace : List (ℕ → ℕ) → ℕ → List ℕ
  | [], t => [t]
  | h :: rest, t => btrace rest (h t) ++ [t]

/-- `CRF._viterbi_decode` restricted to one batch element `idx`: run the
forward loop, find the best tag of the final score vector, trace back
through `history[:seq_ends[idx]]`, reverse, and pad with the sentinel `-1`
to the shared maximum length. -/
def viterbiDecodeSingle (n : ℕ) (trans : ℕ → ℕ → α)
    (emissions : ℕ → ℕ → α) (mask : ℕ → Bool) (seqLength : ℕ) : List ℤ :=
  let st := viterbiState n trans emissions mask (seqLength - 1)
  let seqEnd := countValid mask seqLength - 1
  let bestLastTag := (torchMax n st.1).2
  let bestTags := btrace (st.2.take seqEnd).reverse bestLastTag
  bestTags.map (fun t => (t : ℤ)) ++
    List.replicate (seqLength - bestTags.length) (-1)

/-- `CRF.decode`: computes `trans = self.transitions(...)` once, then decodes
every batch element (the source's `for j in range(batch_size)` inner loop and
the `for idx in range(batch_size)` trace-back loop are per-element). -/
def CRF.decode (c : CRF α) (emissions : ℕ → ℕ → ℕ → α)
    (fullRoadEmb A : ℕ → ℕ → α) (mask : ℕ → ℕ → Bool)
    (seqLength batchSize : ℕ) : List (List ℤ) :=
  (List.range batchSize).map (fun b =>
    viterbiDecodeSingle c.numTags (c.transitions fullRoadEmb A)
      (fun i => emissions i b) (fun i => mask i b) seqLength)

/-- `torch.logsumexp` over the first `k` entries of a score vector.  Uses
real `exp`/`log`, hence the normalizer below is stated over `ℝ`. -/
noncomputable def logsumexp (k : ℕ) (f : ℕ → ℝ) : ℝ :=
  Real.log (∑ j in Finset.range k, Real.exp (f j))

/-- The forward log-sum-exp recursion of `_compute_normalizer` for one batch
element, after processing steps `1 .. m`.  The emissions and the transition
matrix are restricted to the sampled tag set `negTags` (of size
`self.neg_nums`); a step whose mask value is 0 carries the score forward
unchanged (`torch.where(mask[i], next_score, score)`). -/
noncomputable def CRF.normalizerScore (c : CRF ℝ) (emissions : ℕ → ℕ → ℝ)
    (fullRoadEmb A : ℕ → ℕ → ℝ) (mask : ℕ → Bool) (negTags : ℕ → ℕ) :
    ℕ → ℕ → ℝ
  | 0 => fun j => emissions 0 (negTags j)
  | m + 1 =>
    if mask (m + 1) then
      fun j =>
        logsumexp c.negNums (fun i' =>
          c.normalizerScore emissions fullRoadEmb A mask negTags m i' +
            c.transitions fullRoadEmb A (negTags i') (negTags j) +
            emissions (m + 1) (negTags j))
    else c.normalizerScore emissions fullRoadEmb A mask negTags m

/-- `CRF._compute_normalizer` for one batch element, with the drawn sample
passed explicitly (the source draws it from the global NumPy RNG at every
invocation): concatenate the final sampled per-tag scores with the gold
`numerator`, take log-sum-exp over the `neg_nums + 1` entries, and add the
bias correction `log(num_tags / (neg_nums + 1))`. -/
noncomputable def CRF.computeNormalizer (c : CRF ℝ) (emissions : ℕ → ℕ → ℝ)
    (fullRoadEmb A : ℕ → ℕ → ℝ) (mask : ℕ → Bool) (negTags : ℕ → ℕ)
    (seqLength : ℕ) (numerator : ℝ) : ℝ :=
  logsumexp (c.negNums + 1)
    (fun j => if j = c.negNums then numerator
      else c.normalizerScore emissions fullRoadEmb A mask negTags
        (seqLength - 1) j) +
    Real.log ((c.numTags : ℝ) / ((c.negNums : ℝ) + 1))

/-- Modelled from the NumPy semantics of the sampling call
`np.random.choice(self.num_tags, self.neg_nums, replace=False)` executed at
the top of `_compute_normalizer` (crfV1.py line 110): drawing without
replacement raises `ValueError` iff the requested size exceeds the
population, and succeeds otherwise (the successful draw is what the
functions above receive as `negTags`). -/
def npChoiceCheck (numTags negNums : ℕ) : Except String Unit :=
  if numTags < negNums then
    Except.error
      "Cannot take a larger sample than population when replace is False"
  else Except.ok ()

/-- An invocation of `_compute_normalizer` including the error behaviour of
its sampling call. -/
noncomputable def CRF.computeNormalizerRun (c : CRF ℝ)
    (emissions : ℕ → ℕ → ℝ) (fullRoadEmb A : ℕ → ℕ → ℝ) (mask : ℕ → Bool)
    (negTags : ℕ → ℕ) (seqLength : ℕ) (numerator : ℝ) : Except String ℝ :=
  (npChoiceCheck c.numTags c.negNums).map fun _ =>
    c.computeNormalizer emissions fullRoadEmb A mask negTags seqLength
      numerator

/-- `CRF.forward`: per batch element, `llh[b] = numerator[b] -
denominator[b]` with the numerator fed into the normalizer's concatenation;
the returned loss is `llh.sum() / mask.float().sum()` with the mask summed
over the entire `(seq_length, batch_size)` tensor. -/
noncomputable def CRF.forward (c : CRF ℝ) (emissions : ℕ → ℕ → ℕ → ℝ)
    (tags : ℕ → ℕ → ℕ) (fullRoadEmb A : ℕ → ℕ → ℝ) (mask : ℕ → ℕ → Bool)
    (negTags : ℕ → ℕ) (seqLength batchSize : ℕ) : ℝ :=
  (∑ b in Finset.range batchSize,
      (c.computeScore (fun i => emissions i b) (fun i => tags i b)
          fullRoadEmb A (fun i => mask i b) seqLength -
        c.computeNormalizer (fun i => emissions i b) fullRoadEmb A
          (fun i => mask i b) negTags seqLength
          (c.computeScore (fun i => emissions i b) (fun i => tags i b)
            fullRoadEmb A (fun i => mask i b) seqLength))) /
    (∑ b in Finset.range batchSize,
      ∑ i in Finset.range seqLength, (maskF (mask i b) : ℝ))

end GMM

namespace GMM

/- Helper lemmas about `torchMax` and the Viterbi recursion. -/

theorem torchMax_succ {α : Type*} [LinearOrderedCommRing α] (n : ℕ) (f : ℕ → α) :
    torchMax (n + 1) f =
      (if (torchMax n f).1 < f n then (f n, n) else torchMax n f) := by
  unfold torchMax
  rw [List.range_succ, List.foldl_append]
  rfl

/-- `torchMax` returns an in-range arg-max: its value is attained at the
returned index and bounds every entry of the range. -/
theorem torchMax_spec {α : Type*} [LinearOrderedCommRing α] (n : ℕ)
    (hn : 0 < n) (f : ℕ → α) :
    (torchMax n f).2 < n ∧ (torchMax n f).1 = f (torchMax n f).2 ∧
      ∀ i, i < n → f i ≤ (torchMax n f).1 := by
  induction n with
  | zero => exact absurd hn (lt_irrefl 0)
  | succ m ih =>
    rcases Nat.eq_zero_or_pos m with hm | hm
    · subst hm
      have h0 : torchMax 0 f = (f 0, 0) := rfl
      have h1 : torchMax 1 f = (f 0, 0) := by
        rw [torchMax_succ, h0]
        simp
      refine ⟨?_, ?_, ?_⟩
      · rw [h1]; exact Nat.one_pos
      · rw [h1]
      · intro i hi
        interval_cases i
        rw [h1]
    · obtain ⟨ih1, ih2, ih3⟩ := ih hm
      rw [torchMax_succ]
      by_cases h : (torchMax m f).1 < f m
      · rw [if_pos h]
        refine ⟨Nat.lt_succ_self m, rfl, ?_⟩
        intro i hi
        rcases Nat.lt_succ_iff_lt_or_eq.mp hi with hi' | hi'
        · exact le_of_lt (lt_of_le_of_lt (ih3 i hi') h)
        · subst hi'; exact le_refl _
      · rw [if_neg h]
        refine ⟨Nat.lt_succ_of_lt ih1, ih2, ?_⟩
        intro i hi
        rcases Nat.lt_succ_iff_lt_or_eq.mp hi with hi' | hi'
        · exact ih3 i hi'
        · subst hi'; exact not_lt.mp h

theorem viterbiState_snd_length {α : Type*} [LinearOrderedCommRing α]
    (n : ℕ) (trans : ℕ → ℕ → α) (em : ℕ → ℕ → α) (mask : ℕ → Bool) (m : ℕ) :
    (viterbiState n trans em mask m).2.length = m := by
  induction m with
  | zero => rfl
  | succ k ih => simp [viterbiState, ih]

/-- If every step past position 0 is masked out, the Viterbi score vector
stays the step-0 emission row throughout the forward loop. -/
theorem viterbiState_fst_all_masked {α : Type*} [LinearOrderedCommRing α]
    (n : ℕ) (trans : ℕ → ℕ → α) (em : ℕ → ℕ → α) (mask : ℕ → Bool)
    (hrest : ∀ i, mask (i + 1) = false) (m : ℕ) :
    (viterbiState n trans em mask m).1 = em 0 := by
  induction m with
  | zero => rfl
  | succ k ih => simp [viterbiState, hrest k, ih]

theorem countValid_succ (mask : ℕ → Bool) (L : ℕ) :
    countValid mask (L + 1) =
      countValid mask L + (if mask L then 1 else 0) := by
  simp [countValid, List.range_succ, List.countP_append, List.countP_cons]

/-- With position 0 valid and all later positions masked, exactly one
position is valid. -/
theorem countValid_eq_one (mask : ℕ → Bool) (L : ℕ) (hL : 0 < L)
    (h0 : mask 0 = true) (hrest : ∀ i, mask (i + 1) = false) :
    countValid mask L = 1 := by
  induction L with
  | zero => exact absurd hL (lt_irrefl 0)
  | succ k ih =>
    rcases Nat.eq_zero_or_pos k with hk | hk
    · subst hk
      have : List.range 1 = [0] := rfl
      simp [countValid, this, List.countP_cons, h0]
    · rw [countValid_succ, ih hk]
      obtain ⟨k', rfl⟩ := Nat.exists_eq_succ_of_ne_zero hk.ne'
      simp [hrest k']

theorem foldl_congr_mem {β γ : Type*} (l : List γ) (f f' : β → γ → β)
    (a : β) (h : ∀ x ∈ l, ∀ s, f s x = f' s x) :
    l.foldl f a = l.foldl f' a := by
  induction l generalizing a with
  | nil => rfl
  | cons x xs ih =>
    simp only [List.foldl_cons]
    rw [h x (List.mem_cons_self x xs) a]
    exact ih _ fun y hy s => h y (List.mem_cons_of_mem x hy) s

/-- Under a prefix mask, monotone descent: validity at a later position
implies validity at every earlier one. -/
theorem mask_true_of_le (mask : ℕ → Bool)
    (hpre : ∀ i, mask (i + 1) = true → mask i = true) {i j : ℕ}
    (hij : i ≤ j) (hj : mask j = true) : mask i = true := by
  obtain ⟨d, rfl⟩ := Nat.exists_eq_add_of_le hij
  induction d with
  | zero => exact hj
  | succ k ih =>
    exact ih (Nat.le_add_right i k) (hpre (i + k) hj)

theorem countValid_le (mask : ℕ → Bool) (L : ℕ) : countValid mask L ≤ L :=
  le_of_le_of_eq (List.countP_le_length mask) (List.length_range L)

/-- Under a prefix mask, every position below the valid count is valid. -/
theorem mask_true_of_lt_countValid (mask : ℕ → Bool)
    (hpre : ∀ i, mask (i + 1) = true → mask i = true) (L : ℕ) :
    ∀ i, i < countValid mask L → mask i = true := by
  induction L with
  | zero => intro i hi; simp [countValid] at hi
  | succ k ih =>
    intro i hi
    rw [countValid_succ] at hi
    cases hk : mask k with
    | false => rw [hk] at hi; simp at hi; exact ih i hi
    | true =>
      rw [hk] at hi
      simp only [if_true] at hi
      rcases Nat.lt_succ_iff_lt_or_eq.mp hi with hi' | hi'
      · exact ih i hi'
      · exact mask_true_of_le mask hpre
          (hi' ▸ countValid_le mask k) hk

theorem take_congr_of_getElem? {β : Type*} (l l' : List β) (s : ℕ)
    (h : ∀ k, k < s → l[k]? = l'[k]?) : l.take s = l'.take s := by
  apply List.ext_getElem?
  intro k
  rw [List.getElem?_take, List.getElem?_take]
  by_cases hk : k < s
  · rw [if_pos hk, if_pos hk, h k hk]
  · rw [if_neg hk, if_neg hk]

/-- Changing the emissions only at masked-out positions (under a prefix mask
whose position 0 is valid) leaves every Viterbi score vector unchanged, and
every backpointer table recorded at a valid step unchanged. -/
theorem viterbiState_congr {α : Type*} [LinearOrderedCommRing α] (n : ℕ)
    (trans : ℕ → ℕ → α) (em em' : ℕ → ℕ → α) (mask : ℕ → Bool)
    (h0 : mask 0 = true)
    (hpre : ∀ i, mask (i + 1) = true → mask i = true)
    (hem : ∀ i, mask i = true → ∀ t, em i t = em' i t) (m : ℕ) :
    (viterbiState n trans em mask m).1 =
        (viterbiState n trans em' mask m).1 ∧
      ∀ k, mask (k + 1) = true →
        (viterbiState n trans em mask m).2[k]? =
          (viterbiState n trans em' mask m).2[k]? := by
  induction m with
  | zero =>
    refine ⟨funext fun t => hem 0 h0 t, fun k _ => rfl⟩
  | succ m ih =>
    obtain ⟨hf, hh⟩ := ih
    have hlen : (viterbiState n trans em mask m).2.length = m :=
      viterbiState_snd_length n trans em mask m
    have hlen' : (viterbiState n trans em' mask m).2.length = m :=
      viterbiState_snd_length n trans em' mask m
    constructor
    · show (if mask (m + 1) then _ else _) = (if mask (m + 1) then _ else _)
      cases hm : mask (m + 1) with
      | false => simpa using hf
      | true =>
        have hfun : em (m + 1) = em' (m + 1) := funext (hem (m + 1) hm)
        simp [hfun, hf]
    · intro k hk
      show ((viterbiState n trans em mask m).2 ++
            [viterbiStepIndices n trans (em (m + 1))
              (viterbiState n trans em mask m).1])[k]? =
          ((viterbiState n trans em' mask m).2 ++
            [viterbiStepIndices n trans (em' (m + 1))
              (viterbiState n trans em' mask m).1])[k]?
      rw [List.getElem?_append, List.getElem?_append, hlen, hlen']
      by_cases hkm : k < m
      · rw [if_pos hkm, if_pos hkm]
        exact hh k hk
      · rw [if_neg hkm, if_neg hkm]
        rcases Nat.lt_or_ge k (m + 1) with hk1 | hk1
        · have hkm' : k = m := by omega
          subst hkm'
          have hfun : em (k + 1) = em' (k + 1) := funext (hem (k + 1) hk)
          rw [hfun, hf]
        · have h1 : k - m ≥ 1 := by omega
          rw [List.getElem?_eq_none (by simpa using h1),
            List.getElem?_eq_none (by simpa using h1)]

/-- C4: under a per-element prefix mask with position 0 valid, perturbing the
emissions and the gold tags only at masked-out positions changes neither the
`SequenceScorer` output (`_compute_score`) nor the decoded tag sequence
(`_viterbi_decode`). -/
theorem masked_positions_no_influence {α : Type*} [LinearOrderedCommRing α]
    (c : CRF α) (fullRoadEmb A : ℕ → ℕ → α) (em em' : ℕ → ℕ → α)
    (tags tags' : ℕ → ℕ) (mask : ℕ → Bool) (L : ℕ)
    (h0 : mask 0 = true)
    (hpre : ∀ i, mask (i + 1) = true → mask i = true)
    (hem : ∀ i, mask i = true → ∀ t, em i t = em' i t)
    (htags : ∀ i, mask i = true → tags i = tags' i) :
    c.computeScore em tags fullRoadEmb A mask L =
        c.computeScore em' tags' fullRoadEmb A mask L ∧
      viterbiDecodeSingle c.numTags (c.transitions fullRoadEmb A) em mask L =
        viterbiDecodeSingle c.numTags (c.transitions fullRoadEmb A) em' mask
          L := by
  constructor
  · unfold CRF.computeScore
    rw [hem 0 h0 (tags 0), htags 0 h0]
    apply foldl_congr_mem
    intro i hi s
    cases hm : mask i with
    | false => simp [maskF]
    | true =>
      have hprev : mask (i - 1) = true :=
        mask_true_of_le mask hpre (Nat.sub_le i 1) hm
      rw [hem i hm (tags i), htags i hm, htags _ hprev]
  · obtain ⟨hf, hh⟩ := viterbiState_congr c.numTags
      (c.transitions fullRoadEmb A) em em' mask h0 hpre hem (L - 1)
    have htake :
        ((viterbiState c.numTags (c.transitions fullRoadEmb A) em mask
            (L - 1)).2.take (countValid mask L - 1)) =
          ((viterbiState c.numTags (c.transitions fullRoadEmb A) em' mask
            (L - 1)).2.take (countValid mask L - 1)) := by
      apply take_congr_of_getElem?
      intro k hk
      refine hh k (mask_true_of_lt_countValid mask hpre L (k + 1) ?_)
      omega
    simp only [viterbiDecodeSingle, hf, htake]

/-- Witness for C4 at a concrete instance (the two emission tables and the
two gold tag sequences differ at the masked position 1). -/
theorem masked_positions_no_influence_witness :
    ((fun i => decide (i = 0)) 0 : Bool) = true ∧
      (∀ i : ℕ, ((fun i => decide (i = 0)) (i + 1) : Bool) = true →
        ((fun i => decide (i = 0)) i : Bool) = true) ∧
      (∀ i : ℕ, ((fun i => decide (i = 0)) i : Bool) = true →
        ∀ t : ℕ, (fun i t => if i = 0 then (t : ℤ) else 3) i t =
          (fun i t => if i = 0 then (t : ℤ) else 4) i t) ∧
      (∀ i : ℕ, ((fun i => decide (i = 0)) i : Bool) = true →
        (fun _ : ℕ => 0) i = (fun i => if i = 0 then 0 else 1) i) ∧
      ((CRF.init (α := ℤ) 2 1 5 0 (fun _ _ => 0) (fun _ => 0)).computeScore
          (fun i t => if i = 0 then (t : ℤ) else 3) (fun _ => 0)
          (fun _ _ => 0) (fun _ _ => 1) (fun i => decide (i = 0)) 2 =
        (CRF.init (α := ℤ) 2 1 5 0 (fun _ _ => 0) (fun _ => 0)).computeScore
          (fun i t => if i = 0 then (t : ℤ) else 4)
          (fun i => if i = 0 then 0 else 1) (fun _ _ => 0) (fun _ _ => 1)
          (fun i => decide (i = 0)) 2 ∧
        viterbiDecodeSingle
            (CRF.init (α := ℤ) 2 1 5 0 (fun _ _ => 0) (fun _ => 0)).numTags
            ((CRF.init (α := ℤ) 2 1 5 0 (fun _ _ => 0)
              (fun _ => 0)).transitions (fun _ _ => 0) (fun _ _ => 1))
            (fun i t => if i = 0 then (t : ℤ) else 3)
            (fun i => decide (i = 0)) 2 =
          viterbiDecodeSingle
            (CRF.init (α := ℤ) 2 1 5 0 (fun _ _ => 0) (fun _ => 0)).numTags
            ((CRF.init (α := ℤ) 2 1 5 0 (fun _ _ => 0)
              (fun _ => 0)).transitions (fun _ _ => 0) (fun _ _ => 1))
            (fun i t => if i = 0 then (t : ℤ) else 4)
            (fun i => decide (i = 0)) 2) :=
  ⟨rfl, fun i h => by simp at h,
   fun i h t => by
     have hi : i = 0 := by simpa using h
     subst hi
     rfl,
   fun i h => by
     have hi : i = 0 := by simpa using h
     subst hi
     rfl,
   masked_positions_no_influence
     (CRF.init (α := ℤ) 2 1 5 0 (fun _ _ => 0) (fun _ => 0)) (fun _ _ => 0)
     (fun _ _ => 1) (fun i t => if i = 0 then (t : ℤ) else 3)
     (fun i t => if i = 0 then (t : ℤ) else 4) (fun _ => 0)
     (fun i => if i = 0 then 0 else 1) (fun i => decide (i = 0)) 2 rfl
     (fun i h => by simp at h)
     (fun i h t => by
       have hi : i = 0 := by simpa using h
       subst hi
       rfl)
     (fun i h => by
       have hi : i = 0 := by simpa using h
       subst hi
       rfl)⟩

/- Theorems for the TransitionModel claims. -/

/-- C5: for every pair of in-range tag indices, the scalar transition energy
(`CRF.transition`) equals the corresponding entry of the batched transition
matrix (`CRF.transitions`), for any embedding table, linear projection
parameters and adjacency matrix. -/
theorem transition_eq_transitions_entry {α : Type*} [LinearOrderedCommRing α]
    (c : CRF α) (fullRoadEmb A : ℕ → ℕ → α) (a b : ℕ)
    (ha : a < c.numTags) (hb : b < c.numTags) :
    c.transition fullRoadEmb A a b = c.transitions fullRoadEmb A a b := by
  simp [CRF.transition, CRF.transitions, matMul, transposeM, dot]

/-- Witness for C5 at a concrete instance. -/
theorem transition_eq_transitions_entry_witness :
    (0 < (CRF.init (α := ℤ) 1 1 5 0 (fun _ _ => 0) (fun _ => 0)).numTags) ∧
    (CRF.init (α := ℤ) 1 1 5 0 (fun _ _ => 0) (fun _ => 0)).transition
        (fun _ _ => 1) (fun _ _ => 1) 0 0 =
      (CRF.init (α := ℤ) 1 1 5 0 (fun _ _ => 0) (fun _ => 0)).transitions
        (fun _ _ => 1) (fun _ _ => 1) 0 0 :=
  ⟨by decide,
   transition_eq_transitions_entry (CRF.init 1 1 5 0 (fun _ _ => 0) (fun _ => 0))
     (fun _ _ => 1) (fun _ _ => 1) 0 0 (by decide) (by decide)⟩

/-- C6: with a 0/1 adjacency entry, the transition energy at any in-range
pair is nonnegative, and it is exactly 0 whenever the adjacency entry is 0,
regardless of the embeddings. -/
theorem transitions_nonneg_and_zero_of_nonadjacent {α : Type*}
    [LinearOrderedCommRing α] (c : CRF α) (fullRoadEmb A : ℕ → ℕ → α) (a b : ℕ)
    (ha : a < c.numTags) (hb : b < c.numTags)
    (hA : A a b = 0 ∨ A a b = 1) :
    0 ≤ c.transitions fullRoadEmb A a b ∧
      (A a b = 0 → c.transitions fullRoadEmb A a b = 0) := by
  constructor
  · rcases hA with h | h <;> simp [CRF.transitions, h, relu, le_max_right]
  · intro h
    simp [CRF.transitions, h]

/-- C2 counterexample: at a concrete input the Viterbi max-accumulation of
`_viterbi_decode` produces, at step 1 for next tag 1, the value 10 — which no
road-graph neighbor of tag 1 (no predecessor with a nonzero adjacency entry)
can attain: the maximization is not restricted to a beam of road-graph
neighbors. -/
theorem viterbi_max_not_restricted_to_neighbors :
    (viterbiState 2
        ((CRF.init (α := ℤ) 2 1 5 0 (fun _ _ => 0) (fun _ => 0)).transitions
          (fun _ _ => 0) (fun a b => if a = b then 1 else 0))
        (fun i t => if i = 0 then (if t = 0 then 10 else 0) else 0)
        (fun _ => true) 1).1 1 = 10 ∧
      ∀ i' : ℕ, i' < 2 → (if i' = 1 then (1 : ℤ) else 0) ≠ 0 →
        (if i' = 0 then (10 : ℤ) else 0) +
            (CRF.init (α := ℤ) 2 1 5 0 (fun _ _ => 0) (fun _ => 0)).transitions
              (fun _ _ => 0) (fun a b => if a = b then 1 else 0) i' 1 +
          (0 : ℤ) ≠ 10 := by
  decide

/-- C2 amended: the Viterbi max-accumulation of `_viterbi_decode` at every
step `i ≥ 1` ranges over the **full** tag space `0 .. num_tags - 1`: the
accumulated score for each next tag is the supremum over all `num_tags`
current tags (the configured `beam_size` places no restriction, and neither
does road-graph adjacency — non-adjacent predecessors participate with zero
transition energy). -/
theorem viterbiStep_max_over_full_tag_space {α : Type*}
    [LinearOrderedCommRing α] (n : ℕ) (hn : 0 < n) (trans : ℕ → ℕ → α)
    (emI score : ℕ → α) (j : ℕ) :
    viterbiStepScores n trans emI score j =
      (Finset.range n).sup' (Finset.nonempty_range_iff.mpr hn.ne')
        (fun i' => score i' + trans i' j + emI j) := by
  obtain ⟨h2, heq, hub⟩ :=
    torchMax_spec n hn (fun i' => score i' + trans i' j + emI j)
  refine le_antisymm ?_
    (Finset.sup'_le _ _ fun i hi => hub i (Finset.mem_range.mp hi))
  show (torchMax n fun i' => score i' + trans i' j + emI j).1 ≤ _
  rw [heq]
  exact Finset.le_sup' (fun i' => score i' + trans i' j + emI j)
    (Finset.mem_range.mpr h2)

/-- Witness for the amended C2 at a concrete instance. -/
theorem viterbiStep_max_over_full_tag_space_witness :
    0 < 1 ∧
      viterbiStepScores 1 (fun _ _ => (0 : ℤ)) (fun _ => 0) (fun _ => 0) 0 =
        (Finset.range 1).sup' (Finset.nonempty_range_iff.mpr one_ne_zero)
          (fun i' => (fun _ => (0 : ℤ)) i' + (fun _ _ => (0 : ℤ)) i' 0 +
            (fun _ => (0 : ℤ)) 0) :=
  ⟨Nat.one_pos,
   viterbiStep_max_over_full_tag_space 1 Nat.one_pos (fun _ _ => (0 : ℤ))
     (fun _ => 0) (fun _ => 0) 0⟩

/-- C3 counterexample: a concrete run where step 2 is masked out, yet the
backpointers recorded for step 2 (`history[1]`) differ from the ones
recorded for step 1 (`history[0]`): the recorded backpointers of a masked
step are not carried forward unchanged. -/
theorem viterbi_masked_step_backpointers_not_carried :
    (fun i => decide (i < 2)) 2 = false ∧
      (viterbiState 2
          ((CRF.init (α := ℤ) 2 1 5 0 (fun _ _ => 0) (fun _ => 0)).transitions
            (fun _ _ => 0) (fun a b => if a = b then 1 else 0))
          (fun i t => if i = 0 then (if t = 1 then 5 else 0)
            else if i = 1 then (if t = 0 then 10 else 0) else 0)
          (fun i => decide (i < 2)) 2).2.length = 2 ∧
      ((viterbiState 2
          ((CRF.init (α := ℤ) 2 1 5 0 (fun _ _ => 0) (fun _ => 0)).transitions
            (fun _ _ => 0) (fun a b => if a = b then 1 else 0))
          (fun i t => if i = 0 then (if t = 1 then 5 else 0)
            else if i = 1 then (if t = 0 then 10 else 0) else 0)
          (fun i => decide (i < 2)) 2).2.getD 1 (fun _ => 99)) 0 = 0 ∧
      ((viterbiState 2
          ((CRF.init (α := ℤ) 2 1 5 0 (fun _ _ => 0) (fun _ => 0)).transitions
            (fun _ _ => 0) (fun a b => if a = b then 1 else 0))
          (fun i t => if i = 0 then (if t = 1 then 5 else 0)
            else if i = 1 then (if t = 0 then 10 else 0) else 0)
          (fun i => decide (i < 2)) 2).2.getD 0 (fun _ => 99)) 0 = 1 := by
  decide

/-- C3 amended: at a time step whose mask value is 0, the per-tag score
vector is carried forward unchanged, but the backpointers recorded for that
step are the freshly computed arg-max indices obtained from that step's
emissions and the carried score — not the previous step's backpointers. -/
theorem viterbiState_masked_step {α : Type*} [LinearOrderedCommRing α]
    (n : ℕ) (trans : ℕ → ℕ → α) (em : ℕ → ℕ → α) (mask : ℕ → Bool) (m : ℕ)
    (h : mask (m + 1) = false) :
    (viterbiState n trans em mask (m + 1)).1 =
        (viterbiState n trans em mask m).1 ∧
      (viterbiState n trans em mask (m + 1)).2 =
        (viterbiState n trans em mask m).2 ++
          [viterbiStepIndices n trans (em (m + 1))
            (viterbiState n trans em mask m).1] := by
  constructor <;> simp [viterbiState, h]

/-- Witness for the amended C3 at a concrete instance. -/
theorem viterbiState_masked_step_witness :
    ((fun _ => false) 1 : Bool) = false ∧
      ((viterbiState 1 (fun _ _ => (0 : ℤ)) (fun _ _ => 0)
            (fun _ => false) 1).1 =
          (viterbiState 1 (fun _ _ => (0 : ℤ)) (fun _ _ => 0)
            (fun _ => false) 0).1 ∧
        (viterbiState 1 (fun _ _ => (0 : ℤ)) (fun _ _ => 0)
            (fun _ => false) 1).2 =
          (viterbiState 1 (fun _ _ => (0 : ℤ)) (fun _ _ => 0)
            (fun _ => false) 0).2 ++
            [viterbiStepIndices 1 (fun _ _ => (0 : ℤ)) ((fun _ _ => 0) 1)
              (viterbiState 1 (fun _ _ => (0 : ℤ)) (fun _ _ => 0)
                (fun _ => false) 0).1]) :=
  ⟨rfl,
   viterbiState_masked_step 1 (fun _ _ => (0 : ℤ)) (fun _ _ => 0)
     (fun _ => false) 0 rfl⟩

/-- C10: for a batch element whose only valid position is 0 (valid length
exactly 1), `decode` returns a list of the shared maximum length whose head
is the first tag attaining the maximum of the step-0 emissions over the
full tag space and whose remaining entries are the padding sentinel `-1`;
the transition energies have no influence on the result. -/
theorem viterbiDecode_single_valid_position {α : Type*}
    [LinearOrderedCommRing α] (n L : ℕ) (trans trans' : ℕ → ℕ → α)
    (em : ℕ → ℕ → α) (mask : ℕ → Bool) (hn : 0 < n) (hL : 0 < L)
    (h0 : mask 0 = true) (hrest : ∀ i, mask (i + 1) = false) :
    viterbiDecodeSingle n trans em mask L =
        ((torchMax n (em 0)).2 : ℤ) :: List.replicate (L - 1) (-1) ∧
      (viterbiDecodeSingle n trans em mask L).length = L ∧
      (torchMax n (em 0)).2 < n ∧
      (∀ t, t < n → em 0 t ≤ em 0 (torchMax n (em 0)).2) ∧
      viterbiDecodeSingle n trans em mask L =
        viterbiDecodeSingle n trans' em mask L := by
  have hcount := countValid_eq_one mask L hL h0 hrest
  have hdec : ∀ tr : ℕ → ℕ → α,
      viterbiDecodeSingle n tr em mask L =
        ((torchMax n (em 0)).2 : ℤ) :: List.replicate (L - 1) (-1) := by
    intro tr
    have hs := viterbiState_fst_all_masked n tr em mask hrest (L - 1)
    simp [viterbiDecodeSingle, hcount, hs, btrace]
  obtain ⟨hlt, hattain, hub⟩ := torchMax_spec n hn (em 0)
  refine ⟨hdec trans, ?_, hlt, ?_, (hdec trans).trans (hdec trans').symm⟩
  · rw [hdec trans]
    simp only [List.length_cons, List.length_replicate]
    omega
  · intro t ht
    have h := hub t ht
    rwa [hattain] at h

/-- Witness for C10 at a concrete instance. -/
theorem viterbiDecode_single_valid_position_witness :
    0 < 2 ∧ 0 < 3 ∧ ((fun i => decide (i = 0)) 0 : Bool) = true ∧
      (∀ i : ℕ, ((fun i => decide (i = 0)) (i + 1) : Bool) = false) ∧
      (viterbiDecodeSingle 2 (fun _ _ => (0 : ℤ))
          (fun i t => if i = 0 ∧ t = 1 then 5 else 0)
          (fun i => decide (i = 0)) 3 =
          ((torchMax 2 ((fun i t => if i = 0 ∧ t = 1 then (5 : ℤ) else 0) 0)).2 :
              ℤ) :: List.replicate (3 - 1) (-1) ∧
        (viterbiDecodeSingle 2 (fun _ _ => (0 : ℤ))
            (fun i t => if i = 0 ∧ t = 1 then 5 else 0)
            (fun i => decide (i = 0)) 3).length = 3 ∧
        (torchMax 2 ((fun i t => if i = 0 ∧ t = 1 then (5 : ℤ) else 0) 0)).2 <
          2 ∧
        (∀ t, t < 2 →
          (fun i t => if i = 0 ∧ t = 1 then (5 : ℤ) else 0) 0 t ≤
            (fun i t => if i = 0 ∧ t = 1 then (5 : ℤ) else 0) 0
              ((torchMax 2
                ((fun i t => if i = 0 ∧ t = 1 then (5 : ℤ) else 0) 0)).2)) ∧
        viterbiDecodeSingle 2 (fun _ _ => (0 : ℤ))
            (fun i t => if i = 0 ∧ t = 1 then 5 else 0)
            (fun i => decide (i = 0)) 3 =
          viterbiDecodeSingle 2 (fun _ _ => (7 : ℤ))
            (fun i t => if i = 0 ∧ t = 1 then 5 else 0)
            (fun i => decide (i = 0)) 3) :=
  ⟨Nat.zero_lt_two, Nat.zero_lt_succ 2, rfl, fun i => by simp,
   viterbiDecode_single_valid_position 2 3 (fun _ _ => (0 : ℤ))
     (fun _ _ => (7 : ℤ)) (fun i t => if i = 0 ∧ t = 1 then 5 else 0)
     (fun i => decide (i = 0)) Nat.zero_lt_two (Nat.zero_lt_succ 2) rfl
     (fun i => by simp)⟩

/-- Witness for C6 at a concrete instance. -/
theorem transitions_nonneg_and_zero_of_nonadjacent_witness :
    (0 < (CRF.init (α := ℤ) 1 1 5 0 (fun _ _ => 0) (fun _ => 0)).numTags) ∧
    ((fun _ _ => (0 : ℤ)) 0 0 = 0 ∨ (fun _ _ => (0 : ℤ)) 0 0 = 1) ∧
    (0 ≤ (CRF.init (α := ℤ) 1 1 5 0 (fun _ _ => 0) (fun _ => 0)).transitions
        (fun _ _ => 1) (fun _ _ => 0) 0 0 ∧
      ((fun _ _ => (0 : ℤ)) 0 0 = 0 →
        (CRF.init (α := ℤ) 1 1 5 0 (fun _ _ => 0) (fun _ => 0)).transitions
          (fun _ _ => 1) (fun _ _ => 0) 0 0 = 0)) :=
  ⟨by decide, Or.inl rfl,
   transitions_nonneg_and_zero_of_nonadjacent
     (CRF.init 1 1 5 0 (fun _ _ => 0) (fun _ => 0)) (fun _ _ => 1)
     (fun _ _ => 0) 0 0 (by decide) (by decide) (Or.inl rfl)⟩

/-- Every entry below the bound contributes at most the log-sum-exp. -/
theorem le_logsumexp (k : ℕ) (f : ℕ → ℝ) (j : ℕ) (hj : j < k) :
    f j ≤ logsumexp k f := by
  have h1 : Real.exp (f j) ≤ ∑ i in Finset.range k, Real.exp (f i) :=
    Finset.single_le_sum (fun i _ => (Real.exp_pos (f i)).le)
      (Finset.mem_range.mpr hj)
  have h2 := Real.log_le_log (Real.exp_pos (f j)) h1
  rwa [Real.log_exp] at h2

/-- C1: under the precondition `neg_nums < num_tags`, the sampled normalizer
output (`_compute_normalizer`) is at least the gold sequence score
(`_compute_score`) computed on the same emissions, tags and mask: the gold
score is one of the log-sum-exp terms after the concatenation, and the bias
correction `log(num_tags / (neg_nums + 1))` is nonnegative. -/
theorem normalizer_ge_gold_score (c : CRF ℝ) (emissions : ℕ → ℕ → ℝ)
    (tags : ℕ → ℕ) (fullRoadEmb A : ℕ → ℕ → ℝ) (mask : ℕ → Bool)
    (negTags : ℕ → ℕ) (L : ℕ) (h : c.negNums < c.numTags) :
    c.computeScore emissions tags fullRoadEmb A mask L ≤
      c.computeNormalizer emissions fullRoadEmb A mask negTags L
        (c.computeScore emissions tags fullRoadEmb A mask L) := by
  unfold CRF.computeNormalizer
  have hlog := le_logsumexp (c.negNums + 1)
    (fun j => if j = c.negNums
      then c.computeScore emissions tags fullRoadEmb A mask L
      else c.normalizerScore emissions fullRoadEmb A mask negTags (L - 1) j)
    c.negNums (Nat.lt_succ_self _)
  have hlog2 : c.computeScore emissions tags fullRoadEmb A mask L ≤
      logsumexp (c.negNums + 1)
        (fun j => if j = c.negNums
          then c.computeScore emissions tags fullRoadEmb A mask L
          else c.normalizerScore emissions fullRoadEmb A mask negTags
            (L - 1) j) := by
    simpa using hlog
  have hbias : 0 ≤ Real.log ((c.numTags : ℝ) / ((c.negNums : ℝ) + 1)) := by
    apply Real.log_nonneg
    rw [le_div_iff₀ (by positivity), one_mul]
    exact_mod_cast Nat.succ_le_of_lt h
  linarith

/-- Witness for C1 at a concrete instance. -/
theorem normalizer_ge_gold_score_witness :
    (CRF.init (α := ℝ) 2 1 5 1 (fun _ _ => 0) (fun _ => 0)).negNums <
        (CRF.init (α := ℝ) 2 1 5 1 (fun _ _ => 0) (fun _ => 0)).numTags ∧
      (CRF.init (α := ℝ) 2 1 5 1 (fun _ _ => 0) (fun _ => 0)).computeScore
          (fun _ _ => 0) (fun _ => 0) (fun _ _ => 0) (fun _ _ => 1)
          (fun _ => true) 1 ≤
        (CRF.init (α := ℝ) 2 1 5 1 (fun _ _ => 0)
            (fun _ => 0)).computeNormalizer (fun _ _ => 0) (fun _ _ => 0)
          (fun _ _ => 1) (fun _ => true) (fun _ => 0) 1
          ((CRF.init (α := ℝ) 2 1 5 1 (fun _ _ => 0)
              (fun _ => 0)).computeScore (fun _ _ => 0) (fun _ => 0)
            (fun _ _ => 0) (fun _ _ => 1) (fun _ => true) 1) :=
  ⟨by decide,
   normalizer_ge_gold_score (CRF.init 2 1 5 1 (fun _ _ => 0) (fun _ => 0))
     (fun _ _ => 0) (fun _ => 0) (fun _ _ => 0) (fun _ _ => 1)
     (fun _ => true) (fun _ => 0) 1 (by decide)⟩

/-- C7 counterexample: two invocations of `_compute_normalizer` with
identical emissions, embeddings, adjacency, mask (and numerator) but
different RNG draws return different outputs: the normalizer is not a
function of the explicit inputs alone — it depends on the tag sample drawn
from the implicit global NumPy RNG state. -/
theorem normalizer_depends_on_drawn_sample :
    (CRF.init (α := ℝ) 2 1 5 1 (fun _ _ => 0) (fun _ => 0)).computeNormalizer
        (fun i t => if i = 0 ∧ t = 1 then Real.log 3 else 0) (fun _ _ => 0)
        (fun _ _ => 1) (fun _ => true) (fun _ => 0) 1 0 ≠
      (CRF.init (α := ℝ) 2 1 5 1 (fun _ _ => 0)
          (fun _ => 0)).computeNormalizer
        (fun i t => if i = 0 ∧ t = 1 then Real.log 3 else 0) (fun _ _ => 0)
        (fun _ _ => 1) (fun _ => true) (fun _ => 1) 1 0 := by
  have lhs :
      (CRF.init (α := ℝ) 2 1 5 1 (fun _ _ => 0)
          (fun _ => 0)).computeNormalizer
        (fun i t => if i = 0 ∧ t = 1 then Real.log 3 else 0) (fun _ _ => 0)
        (fun _ _ => 1) (fun _ => true) (fun _ => 0) 1 0 = Real.log 2 := by
    simp [CRF.computeNormalizer, CRF.normalizerScore, logsumexp, CRF.init,
      Finset.sum_range_succ, Real.exp_zero]
    norm_num
  have rhs :
      (CRF.init (α := ℝ) 2 1 5 1 (fun _ _ => 0)
          (fun _ => 0)).computeNormalizer
        (fun i t => if i = 0 ∧ t = 1 then Real.log 3 else 0) (fun _ _ => 0)
        (fun _ _ => 1) (fun _ => true) (fun _ => 1) 1 0 = Real.log 4 := by
    simp [CRF.computeNormalizer, CRF.normalizerScore, logsumexp, CRF.init,
      Finset.sum_range_succ, Real.exp_zero]
    rw [Real.exp_log (by norm_num)]
    norm_num
  rw [lhs, rhs]
  exact (Real.log_lt_log (by norm_num) (by norm_num)).ne

/-- C7 amended: the sequence scorer and the Viterbi decoder are
deterministic given their explicit inputs, and the sampled normalizer is
deterministic given its explicit inputs **together with the drawn tag
sample** (which the source obtains from the implicit global NumPy RNG, so
two calls with identical explicit inputs need not agree — see the
counterexample). -/
theorem operations_deterministic (c : CRF ℝ) (em em' : ℕ → ℕ → ℝ)
    (tags tags' : ℕ → ℕ) (fre fre' A A' : ℕ → ℕ → ℝ) (mask mask' : ℕ → Bool)
    (negTags negTags' : ℕ → ℕ) (L n : ℕ) (num num' : ℝ)
    (h1 : em = em') (h2 : tags = tags') (h3 : fre = fre') (h4 : A = A')
    (h5 : mask = mask') (h6 : negTags = negTags') (h7 : num = num') :
    c.computeScore em tags fre A mask L =
        c.computeScore em' tags' fre' A' mask' L ∧
      viterbiDecodeSingle n (c.transitions fre A) em mask L =
        viterbiDecodeSingle n (c.transitions fre' A') em' mask' L ∧
      c.computeNormalizer em fre A mask negTags L num =
        c.computeNormalizer em' fre' A' mask' negTags' L num' := by
  subst h1 h2 h3 h4 h5 h6 h7
  exact ⟨rfl, rfl, rfl⟩

/-- Witness for the amended C7 at a concrete instance. -/
theorem operations_deterministic_witness :
    ((fun (_ : ℕ) (_ : ℕ) => (0 : ℝ)) = fun (_ : ℕ) (_ : ℕ) => (0 : ℝ)) ∧
      ((CRF.init (α := ℝ) 1 1 5 1 (fun _ _ => 0) (fun _ => 0)).computeScore
          (fun _ _ => 0) (fun _ => 0) (fun _ _ => 0) (fun _ _ => 0)
          (fun _ => true) 1 =
        (CRF.init (α := ℝ) 1 1 5 1 (fun _ _ => 0) (fun _ => 0)).computeScore
          (fun _ _ => 0) (fun _ => 0) (fun _ _ => 0) (fun _ _ => 0)
          (fun _ => true) 1 ∧
        viterbiDecodeSingle 1
            ((CRF.init (α := ℝ) 1 1 5 1 (fun _ _ => 0)
              (fun _ => 0)).transitions (fun _ _ => 0) (fun _ _ => 0))
            (fun _ _ => 0) (fun _ => true) 1 =
          viterbiDecodeSingle 1
            ((CRF.init (α := ℝ) 1 1 5 1 (fun _ _ => 0)
              (fun _ => 0)).transitions (fun _ _ => 0) (fun _ _ => 0))
            (fun _ _ => 0) (fun _ => true) 1 ∧
        (CRF.init (α := ℝ) 1 1 5 1 (fun _ _ => 0)
            (fun _ => 0)).computeNormalizer (fun _ _ => 0) (fun _ _ => 0)
          (fun _ _ => 0) (fun _ => true) (fun _ => 0) 1 0 =
          (CRF.init (α := ℝ) 1 1 5 1 (fun _ _ => 0)
              (fun _ => 0)).computeNormalizer (fun _ _ => 0) (fun _ _ => 0)
            (fun _ _ => 0) (fun _ => true) (fun _ => 0) 1 0) :=
  ⟨rfl,
   operations_deterministic (CRF.init 1 1 5 1 (fun _ _ => 0) (fun _ => 0))
     (fun _ _ => 0) (fun _ _ => 0) (fun _ => 0) (fun _ => 0) (fun _ _ => 0)
     (fun _ _ => 0) (fun _ _ => 0) (fun _ _ => 0) (fun _ => true)
     (fun _ => true) (fun _ => 0) (fun _ => 0) 1 1 0 0 rfl rfl rfl rfl rfl
     rfl rfl⟩

/-- C8 counterexample: a `CRF` whose requested negative-sample count equals
`num_tags` (hence is `≥ num_tags`) is constructed without any error — the
constructor stores the fields unchecked — and even the normalizer
invocation succeeds, because NumPy's sampling without replacement only
fails when the requested size strictly exceeds the population. -/
theorem sample_size_not_checked_at_construction :
    (CRF.init (α := ℝ) 3 1 5 3 (fun _ _ => 0) (fun _ => 0)).numTags ≤
        (CRF.init (α := ℝ) 3 1 5 3 (fun _ _ => 0) (fun _ => 0)).negNums ∧
      ((CRF.init (α := ℝ) 3 1 5 3 (fun _ _ => 0)
            (fun _ => 0)).computeNormalizerRun (fun _ _ => 0) (fun _ _ => 0)
          (fun _ _ => 0) (fun _ => true) (fun _ => 0) 1 0).isOk = true :=
  ⟨by decide, rfl⟩

/-- C8 amended: construction never fails (the constructor just stores its
arguments), and the `SampleSizeTooLarge` failure surfaces at normalizer
invocation time, inside the sampling call — and only when the requested
negative-sample count strictly exceeds `num_tags`. -/
theorem sample_size_error_at_invocation (numTags embDim beamSize negNums : ℕ)
    (w : ℕ → ℕ → ℝ) (bias : ℕ → ℝ) (em fre A : ℕ → ℕ → ℝ) (mask : ℕ → Bool)
    (negTags : ℕ → ℕ) (L : ℕ) (num : ℝ) :
    (CRF.init numTags embDim beamSize negNums w bias).negNums = negNums ∧
      (CRF.init numTags embDim beamSize negNums w bias).numTags = numTags ∧
      (((CRF.init numTags embDim beamSize negNums w
            bias).computeNormalizerRun em fre A mask negTags L num).isOk =
          true ↔ negNums ≤ numTags) := by
  refine ⟨rfl, rfl, ?_⟩
  unfold CRF.computeNormalizerRun npChoiceCheck
  simp only [CRF.init]
  rcases Nat.lt_or_ge numTags negNums with h | h
  · rw [if_pos h]
    constructor
    · intro hf
      simp [Except.map, Except.isOk, Except.toBool] at hf
    · intro hle
      exact absurd h (not_lt.mpr hle)
  · rw [if_neg (not_lt.mpr h)]
    constructor
    · intro _
      exact h
    · intro _
      rfl

theorem sum_maskF_eq_countValid (mask : ℕ → Bool) (L : ℕ) :
    (∑ i in Finset.range L, (maskF (mask i) : ℝ)) =
      ((countValid mask L : ℕ) : ℝ) := by
  induction L with
  | zero => simp [countValid]
  | succ k ih =>
    rw [Finset.sum_range_succ, ih, countValid_succ]
    push_cast
    cases h : mask k <;> simp [maskF, h]

/-- C9: the training entry point `forward` returns the sum over the batch of
the per-element differences (gold score minus normalizer) divided by the
total number of valid (mask = 1) positions across the whole batch. -/
theorem forward_eq_sum_diff_div_valid_count (c : CRF ℝ)
    (emissions : ℕ → ℕ → ℕ → ℝ) (tags : ℕ → ℕ → ℕ)
    (fullRoadEmb A : ℕ → ℕ → ℝ) (mask : ℕ → ℕ → Bool) (negTags : ℕ → ℕ)
    (L B : ℕ) :
    c.forward emissions tags fullRoadEmb A mask negTags L B =
      (∑ b in Finset.range B,
          (c.computeScore (fun i => emissions i b) (fun i => tags i b)
              fullRoadEmb A (fun i => mask i b) L -
            c.computeNormalizer (fun i => emissions i b) fullRoadEmb A
              (fun i => mask i b) negTags L
              (c.computeScore (fun i => emissions i b) (fun i => tags i b)
                fullRoadEmb A (fun i => mask i b) L))) /
        ((∑ b in Finset.range B, countValid (fun i => mask i b) L : ℕ) :
          ℝ) := by
  unfold CRF.forward
  congr 1
  rw [Nat.cast_sum]
  exact Finset.sum_congr rfl fun b _ =>
    sum_maskF_eq_countValid (fun i => mask i b) L

end GMM
